import Mathlib

/-!
A shallow embedding of the Monkey-language lexer from `src/main.rs`.

Modelling conventions:
* Rust `String` input is embedded as `List Char` (the input's character
  sequence).  The Rust code byte-indexes the input in its slices
  (`self.input[a..b]`) while its cursor (`chars().nth`) counts characters;
  for ASCII input — the scope of the safety claim — byte indices and
  character indices coincide, so the `List Char` model is exact there.
* Rust slicing `input[a..b]` can panic when the range is out of bounds, so
  the functions that slice return `Option`: `none` models a panic.
* The two `while` loops (`eat_whitespace` and the scan loops inside
  `read_identifier_token` / `read_number_token`) are embedded through a
  fuelled iterator `skipFuel` with fuel `input.length + 2`; the theorem
  `skip_unfold` below proves this fuel always suffices, i.e. the fuelled
  function satisfies the loop's defining equation, so it is the loop's
  (unique, total) semantics.
* `char::is_alphabetic` / `char::is_numeric` are embedded as `Char.isAlpha`
  / `Char.isDigit`, which agree with Rust on all ASCII characters (outside
  ASCII the Rust byte-slicing is itself broken, see the safety claim).
-/

/-- Token kinds, mirroring `enum TokenType` in `src/main.rs`. -/
inductive TokenType where
  | ILLEGAL
  | EOF
  | ASSIGN
  | PLUS
  | COMMA
  | SEMICOLON
  | LPARAN
  | RPARAN
  | LBRACE
  | RBRACE
  | FUNCTION
  | LET
  | IDENTIFIER
  | INT
deriving DecidableEq

/-- A produced token, mirroring `struct Token`: a kind and its literal text. -/
structure Token where
  token_type : TokenType
  literal : List Char
deriving DecidableEq

/-- Lexer state, mirroring `struct Lexer`: the owned input, the cursor
`read_position` (index of the next unread character), and the peeked
`current_char`. -/
structure Lexer where
  input : List Char
  read_position : Nat
  current_char : Char
deriving DecidableEq

/-- `Lexer::read_char`: set `current_char` to the character at index
`read_position` (the NUL sentinel when past the end, Rust's
`unwrap_or('\0')`), then increment `read_position`. -/
def Lexer.read_char (l : Lexer) : Lexer :=
  { l with
    current_char := (l.input[l.read_position]?).getD '\x00'
    read_position := l.read_position + 1 }

/-- The whitespace characters of the Monkey language, as listed in
`eat_whitespace`. -/
def whitespace_chars : List Char := [' ', '\t', '\n', '\r']

/-- `Lexer::is_identifier_char` on a bare character: alphabetic or
underscore. -/
def isIdentifierChar (c : Char) : Bool := c.isAlpha || c = '_'

/-- `Lexer::is_number_char` on a bare character: a decimal digit. -/
def isNumberChar (c : Char) : Bool := c.isDigit

/-- `Lexer::is_identifier_char`: the peeked character is alphabetic or `_`. -/
def Lexer.is_identifier_char (l : Lexer) : Bool := isIdentifierChar l.current_char

/-- `Lexer::is_number_char`: the peeked character is a decimal digit. -/
def Lexer.is_number_char (l : Lexer) : Bool := isNumberChar l.current_char

/-- Fuelled form of the source's `while pred(current_char) { read_char() }`
loops: iterate `read_char` while `pred` holds of the peeked character. -/
def skipFuel (pred : Char → Bool) : Nat → Lexer → Lexer
  | 0, l => l
  | fuel + 1, l => if pred l.current_char then skipFuel pred fuel l.read_char else l

/-- `Lexer::eat_whitespace`: advance while the peeked character is
whitespace.  Fuel `input.length + 2` always suffices (`skip_unfold`). -/
def Lexer.eat_whitespace (l : Lexer) : Lexer :=
  skipFuel (fun c => whitespace_chars.contains c) (l.input.length + 2) l

/-- The scan loop of `Lexer::read_identifier_token`: advance while the
peeked character is an identifier character. -/
def Lexer.skip_identifier_chars (l : Lexer) : Lexer :=
  skipFuel isIdentifierChar (l.input.length + 2) l

/-- The scan loop of `Lexer::read_number_token`: advance while the peeked
character is a digit. -/
def Lexer.skip_number_chars (l : Lexer) : Lexer :=
  skipFuel isNumberChar (l.input.length + 2) l

/-- The `single_char_token_map` of `next_token`, including its (dead)
sentinel entry. -/
def single_char_token_map (c : Char) : Option TokenType :=
  if c = '=' then some .ASSIGN
  else if c = '+' then some .PLUS
  else if c = '(' then some .LPARAN
  else if c = ')' then some .RPARAN
  else if c = '{' then some .LBRACE
  else if c = '}' then some .RBRACE
  else if c = ',' then some .COMMA
  else if c = ';' then some .SEMICOLON
  else if c = '\x00' then some .EOF
  else none

/-- `Lexer::lookup_identifier`: linear scan of the keyword table
`[("fn", FUNCTION), ("let", LET)]`; anything else is `IDENTIFIER`. -/
def lookup_identifier (identifier : List Char) : TokenType :=
  if identifier = ['f', 'n'] then .FUNCTION
  else if identifier = ['l', 'e', 't'] then .LET
  else .IDENTIFIER

/-- Rust's `input[a..b]`: `none` models the panic when the range is out of
bounds. -/
def sliceChars (input : List Char) (a b : Nat) : Option (List Char) :=
  if a ≤ b ∧ b ≤ input.length then some ((input.drop a).take (b - a)) else none

/-- `Lexer::read_identifier_token`: remember `start_position =
read_position - 1`, run the scan loop, slice
`input[start_position .. read_position - 1]` as the literal, classify it
with `lookup_identifier`. -/
def Lexer.read_identifier_token (l : Lexer) : Option (Token × Lexer) :=
  let start_position := l.read_position - 1
  let l2 := l.skip_identifier_chars
  match sliceChars l2.input start_position (l2.read_position - 1) with
  | none => none
  | some literal => some ({ token_type := lookup_identifier literal, literal := literal }, l2)

/-- `Lexer::read_number_token`: like the identifier scan but over digits,
always classified `INT`. -/
def Lexer.read_number_token (l : Lexer) : Option (Token × Lexer) :=
  let start_position := l.read_position - 1
  let l2 := l.skip_number_chars
  match sliceChars l2.input start_position (l2.read_position - 1) with
  | none => none
  | some literal => some ({ token_type := .INT, literal := literal }, l2)

/-- `Lexer::next_token`: eat whitespace; return `EOF` on the sentinel;
otherwise dispatch on the single-character table, falling back to the
identifier scan, the number scan, then `ILLEGAL`.  In the single-character
and `ILLEGAL` paths the source advances with `read_char` FIRST and then
builds the literal from the (new) `current_char`, and that order is
preserved here. -/
def Lexer.next_token (l : Lexer) : Option (Token × Lexer) :=
  let l := l.eat_whitespace
  if l.current_char = '\x00' then
    some ({ token_type := .EOF, literal := [] }, l)
  else
    match single_char_token_map l.current_char with
    | some token_type =>
        let l := l.read_char
        some ({ token_type := token_type, literal := [l.current_char] }, l)
    | none =>
        if l.is_identifier_char then
          l.read_identifier_token
        else if l.is_number_char then
          l.read_number_token
        else
          let l := l.read_char
          some ({ token_type := .ILLEGAL, literal := [l.current_char] }, l)

/-- `Lexer::new`: start with cursor `0` and a NUL peeked character, then
prime the first character with `read_char`. -/
def Lexer.new (input : List Char) : Lexer :=
  Lexer.read_char { input := input, read_position := 0, current_char := '\x00' }

/-- The state reached after `n` calls to `next_token` (propagating the
panic `none`). -/
def nthState : Lexer → Nat → Option Lexer
  | l, 0 => some l
  | l, n + 1 =>
    match l.next_token with
    | none => none
    | some (_, l2) => nthState l2 n

/-- The token returned by the `(n+1)`-st call to `next_token`. -/
def nthToken (l : Lexer) (n : Nat) : Option Token :=
  (nthState l n).bind fun s => s.next_token.map Prod.fst

/-- The list of tokens produced by calling `next_token` repeatedly (at most
`fuel` calls), stopping after the first `EOF` token, as the driver loops in
`main` and the `lex_compound` test do. -/
def tokensFuel : Nat → Lexer → List Token
  | 0, _ => []
  | fuel + 1, l =>
    match l.next_token with
    | none => []
    | some (t, l2) =>
      if t.token_type = .EOF then [t] else t :: tokensFuel fuel l2

/-- Well-formedness of a lexer state: every state reachable from
`Lexer.new` satisfies it.  The cursor has moved past at least the primed
character, sits at most one past the end, and the peeked character is
exactly the input character at `read_position - 1` (NUL past the end). -/
def wf (l : Lexer) : Prop :=
  1 ≤ l.read_position ∧ l.read_position ≤ l.input.length + 1 ∧
    l.current_char = (l.input[l.read_position - 1]?).getD '\x00'

instance (l : Lexer) : Decidable (wf l) := by unfold wf; infer_instance

/-- An upper bound on the number of loop iterations `skipFuel` still has to
perform from a given state. -/
def skipNeeded (l : Lexer) : Nat :=
  (l.input.length + 1 - l.read_position) + (if l.current_char = '\x00' then 0 else 1)

/-! ### Character-class facts

The Rust code classifies with `char::is_alphabetic` / `char::is_numeric`
(here `Char.isAlpha` / `Char.isDigit`); the lemmas below pin down how these
classes relate to the whitespace list, the single-character table, the
underscore and the NUL sentinel. -/

theorem toBitVec_toNat (u : UInt32) : u.toBitVec.toNat = u.toNat := rfl

theorem isDigit_iff (c : Char) : c.isDigit = true ↔ 48 ≤ c.val.toNat ∧ c.val.toNat ≤ 57 := by
  simp only [Char.isDigit, decide_eq_true_eq, Bool.and_eq_true, ge_iff_le, Char.le_def,
    UInt32.le_def, BitVec.le_def, toBitVec_toNat]
  exact Iff.rfl

theorem isAlpha_iff (c : Char) :
    c.isAlpha = true ↔ (65 ≤ c.val.toNat ∧ c.val.toNat ≤ 90) ∨ (97 ≤ c.val.toNat ∧ c.val.toNat ≤ 122) := by
  simp only [Char.isAlpha, Char.isUpper, Char.isLower, Bool.or_eq_true, Bool.and_eq_true,
    decide_eq_true_eq, ge_iff_le, Char.le_def, UInt32.le_def, BitVec.le_def, toBitVec_toNat]
  exact Iff.rfl

theorem char_eq_iff (c d : Char) : c = d ↔ c.val.toNat = d.val.toNat := by
  constructor
  · intro h; rw [h]
  · intro h; exact Char.ext (UInt32.ext h)

theorem digit_not_ws (c : Char) (h : c.isDigit = true) : whitespace_chars.contains c = false := by
  rw [isDigit_iff] at h
  unfold whitespace_chars
  simp only [List.contains_cons, List.contains_nil, Bool.or_eq_false_iff, beq_eq_false_iff_ne, ne_eq]
  refine ⟨?_, ?_, ?_, ?_, trivial⟩ <;>
    (intro he; rw [char_eq_iff] at he; simp only [show (' ').val.toNat = 32 from rfl,
      show ('\t').val.toNat = 9 from rfl, show ('\n').val.toNat = 10 from rfl,
      show ('\x0d').val.toNat = 13 from rfl] at he; omega)

theorem alpha_not_ws (c : Char) (h : c.isAlpha = true) : whitespace_chars.contains c = false := by
  rw [isAlpha_iff] at h
  unfold whitespace_chars
  simp only [List.contains_cons, List.contains_nil, Bool.or_eq_false_iff, beq_eq_false_iff_ne, ne_eq]
  refine ⟨?_, ?_, ?_, ?_, trivial⟩ <;>
    (intro he; rw [char_eq_iff] at he; simp only [show (' ').val.toNat = 32 from rfl,
      show ('\t').val.toNat = 9 from rfl, show ('\n').val.toNat = 10 from rfl,
      show ('\x0d').val.toNat = 13 from rfl] at he; omega)

theorem digit_ne_nul (c : Char) (h : c.isDigit = true) : c ≠ '\x00' := by
  rw [isDigit_iff] at h
  intro he; rw [char_eq_iff] at he
  simp only [show ('\x00').val.toNat = 0 from rfl] at he
  omega

theorem alpha_ne_nul (c : Char) (h : c.isAlpha = true) : c ≠ '\x00' := by
  rw [isAlpha_iff] at h
  intro he; rw [char_eq_iff] at he
  simp only [show ('\x00').val.toNat = 0 from rfl] at he
  omega

theorem digit_not_identChar (c : Char) (h : c.isDigit = true) : isIdentifierChar c = false := by
  rw [isDigit_iff] at h
  unfold isIdentifierChar
  simp only [Bool.or_eq_false_iff]
  constructor
  · rw [Bool.eq_false_iff]; intro ha; rw [isAlpha_iff] at ha; omega
  · simp only [decide_eq_false_iff_not]; intro he; rw [char_eq_iff] at he
    simp only [show ('_').val.toNat = 95 from rfl] at he
    omega

theorem alpha_not_digit (c : Char) (h : c.isAlpha = true) : isNumberChar c = false := by
  rw [isAlpha_iff] at h
  unfold isNumberChar
  rw [Bool.eq_false_iff]; intro hd; rw [isDigit_iff] at hd; omega

theorem alpha_identChar (c : Char) (h : c.isAlpha = true) : isIdentifierChar c = true := by
  unfold isIdentifierChar
  rw [h, Bool.true_or]

theorem digit_map_none (c : Char) (h : c.isDigit = true) : single_char_token_map c = none := by
  unfold single_char_token_map
  split_ifs with h1 h2 h3 h4 h5 h6 h7 h8 h9 <;>
    first
      | rfl
      | (subst_vars; exact absurd h (by decide))

theorem alpha_map_none (c : Char) (h : c.isAlpha = true) : single_char_token_map c = none := by
  unfold single_char_token_map
  split_ifs with h1 h2 h3 h4 h5 h6 h7 h8 h9 <;>
    first
      | rfl
      | (subst_vars; exact absurd h (by decide))

/-! ### Loop semantics

`skipFuel` with fuel `input.length + 2` computes the exact fixpoint of the
source's `while` loops: `skip_unfold` below shows it satisfies the loop's
defining equation, for any predicate that rejects the NUL sentinel (as all
three loop predicates do). -/

theorem skipFuel_stop (pred : Char → Bool) (f : Nat) (l : Lexer)
    (h : pred l.current_char = false) : skipFuel pred f l = l := by
  cases f with
  | zero => rfl
  | succ f => unfold skipFuel; rw [h]; simp

theorem read_char_input (l : Lexer) : l.read_char.input = l.input := rfl

theorem read_char_pos (l : Lexer) : l.read_char.read_position = l.read_position + 1 := rfl

theorem skipNeeded_read_char_lt (pred : Char → Bool) (hnul : pred '\x00' = false)
    (l : Lexer) (h : pred l.current_char = true) : skipNeeded l.read_char < skipNeeded l := by
  have hcc : l.current_char ≠ '\x00' := by
    intro he; rw [he, hnul] at h; exact Bool.false_ne_true h
  unfold skipNeeded
  rw [read_char_input, read_char_pos, if_neg hcc]
  rcases Nat.lt_or_ge l.read_position l.input.length with hp | hp
  · split <;> omega
  · have hnone : l.input[l.read_position]? = none := by
      rw [List.getElem?_eq_none_iff]
      exact hp
    have h0 : l.read_char.current_char = '\x00' := by
      show (l.input[l.read_position]?).getD '\x00' = '\x00'
      rw [hnone]; rfl
    rw [if_pos h0]
    omega

theorem skipFuel_congr (pred : Char → Bool) (hnul : pred '\x00' = false) :
    ∀ (f g : Nat) (l : Lexer), skipNeeded l ≤ f → skipNeeded l ≤ g →
      skipFuel pred f l = skipFuel pred g l := by
  intro f
  induction f with
  | zero =>
    intro g l hf hg
    cases hpc : pred l.current_char with
    | false => rw [skipFuel_stop pred _ _ hpc, skipFuel_stop pred _ _ hpc]
    | true =>
      exfalso
      have := skipNeeded_read_char_lt pred hnul l hpc
      omega
  | succ f ih =>
    intro g l hf hg
    cases hpc : pred l.current_char with
    | false => rw [skipFuel_stop pred _ _ hpc, skipFuel_stop pred _ _ hpc]
    | true =>
      have hlt := skipNeeded_read_char_lt pred hnul l hpc
      have hg1 : 1 ≤ g := by omega
      obtain ⟨g2, rfl⟩ : ∃ g2, g = g2 + 1 := ⟨g - 1, by omega⟩
      show skipFuel pred (f + 1) l = skipFuel pred (g2 + 1) l
      unfold skipFuel
      rw [hpc]
      simp only [if_true]
      exact ih g2 l.read_char (by omega) (by omega)

theorem skipNeeded_le (l : Lexer) : skipNeeded l ≤ l.input.length + 2 := by
  unfold skipNeeded; split <;> omega

theorem skipNeeded_read_char_le (l : Lexer) : skipNeeded l.read_char ≤ l.input.length + 1 := by
  unfold skipNeeded
  rw [read_char_input, read_char_pos]
  split <;> omega

/-- The fuelled loop satisfies the `while` loop's defining equation, so it
agrees with the Rust loop on every state. -/
theorem skip_unfold (pred : Char → Bool) (hnul : pred '\x00' = false) (l : Lexer) :
    skipFuel pred (l.input.length + 2) l =
      if pred l.current_char then skipFuel pred (l.read_char.input.length + 2) l.read_char
      else l := by
  cases hpc : pred l.current_char with
  | false => rw [skipFuel_stop pred _ _ hpc]; simp
  | true =>
    simp only [if_true]
    show skipFuel pred (l.input.length + 1 + 1) l = _
    unfold skipFuel
    rw [hpc]
    simp only [if_true]
    rw [read_char_input]
    have h1 : skipNeeded l.read_char ≤ l.input.length + 1 := skipNeeded_read_char_le l
    exact skipFuel_congr pred hnul (l.input.length + 1) (l.input.length + 2) l.read_char h1
      (by omega)

theorem ws_nul : whitespace_chars.contains '\x00' = false := by decide

theorem identChar_nul : isIdentifierChar '\x00' = false := by decide

theorem numberChar_nul : isNumberChar '\x00' = false := by decide

/-- `eat_whitespace` satisfies the source loop's defining equation. -/
theorem eat_whitespace_unfold (l : Lexer) :
    l.eat_whitespace =
      if whitespace_chars.contains l.current_char then l.read_char.eat_whitespace else l :=
  skip_unfold (fun c => whitespace_chars.contains c) ws_nul l

/-- The identifier scan loop satisfies the source loop's defining equation. -/
theorem skip_identifier_chars_unfold (l : Lexer) :
    l.skip_identifier_chars =
      if isIdentifierChar l.current_char then l.read_char.skip_identifier_chars else l :=
  skip_unfold isIdentifierChar identChar_nul l

/-- The number scan loop satisfies the source loop's defining equation. -/
theorem skip_number_chars_unfold (l : Lexer) :
    l.skip_number_chars =
      if isNumberChar l.current_char then l.read_char.skip_number_chars else l :=
  skip_unfold isNumberChar numberChar_nul l

theorem skipFuel_input (pred : Char → Bool) :
    ∀ (f : Nat) (l : Lexer), (skipFuel pred f l).input = l.input := by
  intro f
  induction f with
  | zero => intro l; rfl
  | succ f ih =>
    intro l
    unfold skipFuel
    cases hpc : pred l.current_char with
    | false => simp
    | true => simp only [if_true]; rw [ih l.read_char, read_char_input]

theorem skipFuel_pos_le (pred : Char → Bool) :
    ∀ (f : Nat) (l : Lexer), l.read_position ≤ (skipFuel pred f l).read_position := by
  intro f
  induction f with
  | zero => intro l; exact Nat.le_refl _
  | succ f ih =>
    intro l
    unfold skipFuel
    cases hpc : pred l.current_char with
    | false => simp
    | true =>
      simp only [if_true]
      have := ih l.read_char
      rw [read_char_pos] at this
      omega

/-- `read_char` keeps the cursor/peek invariant; it stays within
`input.length + 1` whenever the character just consumed was real. -/
theorem read_char_wf (l : Lexer) (hwf : wf l) (hc : l.current_char ≠ '\x00') :
    wf l.read_char := by
  obtain ⟨h1, h2, h3⟩ := hwf
  have hsome : l.input[l.read_position - 1]? ≠ none := by
    intro he; rw [he] at h3; exact hc h3
  have hlt : l.read_position - 1 < l.input.length := by
    by_contra hge
    exact hsome (List.getElem?_eq_none_iff.mpr (by omega))
  refine ⟨by rw [read_char_pos]; omega, by rw [read_char_pos, read_char_input]; omega, ?_⟩
  rw [read_char_pos, read_char_input]
  rfl

theorem skipFuel_wf (pred : Char → Bool) (hnul : pred '\x00' = false) :
    ∀ (f : Nat) (l : Lexer), wf l → wf (skipFuel pred f l) := by
  intro f
  induction f with
  | zero => intro l h; exact h
  | succ f ih =>
    intro l hwf
    unfold skipFuel
    cases hpc : pred l.current_char with
    | false => simpa using hwf
    | true =>
      simp only [if_true]
      have hc : l.current_char ≠ '\x00' := by
        intro he; rw [he, hnul] at hpc; exact Bool.false_ne_true hpc
      exact ih l.read_char (read_char_wf l hwf hc)

/-! ### One call to `next_token`: totality, progress, terminal behavior -/

theorem next_token_eq (l : Lexer) :
    l.next_token =
      (if l.eat_whitespace.current_char = '\x00' then
        some ({ token_type := .EOF, literal := [] }, l.eat_whitespace)
      else
        match single_char_token_map l.eat_whitespace.current_char with
        | some tt =>
            some ({ token_type := tt, literal := [l.eat_whitespace.read_char.current_char] },
              l.eat_whitespace.read_char)
        | none =>
            if l.eat_whitespace.is_identifier_char then
              l.eat_whitespace.read_identifier_token
            else if l.eat_whitespace.is_number_char then
              l.eat_whitespace.read_number_token
            else
              some ({ token_type := .ILLEGAL, literal := [l.eat_whitespace.read_char.current_char] },
                l.eat_whitespace.read_char)) := rfl

theorem read_identifier_token_eq (l : Lexer) :
    l.read_identifier_token =
      match sliceChars l.skip_identifier_chars.input (l.read_position - 1)
          (l.skip_identifier_chars.read_position - 1) with
      | none => none
      | some lit =>
          some ({ token_type := lookup_identifier lit, literal := lit }, l.skip_identifier_chars) := rfl

theorem read_number_token_eq (l : Lexer) :
    l.read_number_token =
      match sliceChars l.skip_number_chars.input (l.read_position - 1)
          (l.skip_number_chars.read_position - 1) with
      | none => none
      | some lit => some ({ token_type := .INT, literal := lit }, l.skip_number_chars) := rfl

theorem sliceChars_some (input : List Char) (a b : Nat) (h1 : a ≤ b) (h2 : b ≤ input.length) :
    sliceChars input a b = some ((input.drop a).take (b - a)) := by
  unfold sliceChars
  rw [if_pos ⟨h1, h2⟩]

theorem map_eof (c : Char) (h : single_char_token_map c = some .EOF) : c = '\x00' := by
  unfold single_char_token_map at h
  split_ifs at h with h1 h2 h3 h4 h5 h6 h7 h8 h9
  all_goals first | assumption | simp at h

theorem lookup_ne_eof (s : List Char) : lookup_identifier s ≠ .EOF := by
  unfold lookup_identifier
  split_ifs <;> decide

/-- When the peeked character is already the sentinel, `next_token` returns
the `EOF` token and leaves the state entirely unchanged. -/
theorem eof_fix (l : Lexer) (h : l.current_char = '\x00') :
    l.next_token = some ({ token_type := .EOF, literal := [] }, l) := by
  have hws : l.eat_whitespace = l := by
    unfold Lexer.eat_whitespace
    exact skipFuel_stop _ _ _ (by rw [h]; exact ws_nul)
  rw [next_token_eq, hws, if_pos h]

/-- Each call on a well-formed state succeeds (no panic), preserves
well-formedness, leaves the state at the sentinel when it returns `EOF`,
and strictly advances the cursor otherwise. -/
theorem next_token_step (l : Lexer) (hwf : wf l) :
    ∃ t l2, l.next_token = some (t, l2) ∧ wf l2 ∧ l2.input = l.input ∧
      (t.token_type = .EOF →
        t = { token_type := .EOF, literal := [] } ∧ l2.current_char = '\x00') ∧
      (t.token_type ≠ .EOF → l.read_position < l2.read_position) := by
  have hwm : wf l.eat_whitespace := skipFuel_wf _ ws_nul _ l hwf
  have hml : l.read_position ≤ l.eat_whitespace.read_position := skipFuel_pos_le _ _ l
  have hmi : l.eat_whitespace.input = l.input := skipFuel_input _ _ l
  rw [next_token_eq]
  set m := l.eat_whitespace with hm
  by_cases h0 : m.current_char = '\x00'
  · rw [if_pos h0]
    exact ⟨_, m, rfl, hwm, hmi, fun _ => ⟨rfl, h0⟩, fun hne => absurd rfl hne⟩
  · rw [if_neg h0]
    have hwr : wf m.read_char := read_char_wf m hwm h0
    cases hmap : single_char_token_map m.current_char with
    | some tt =>
      refine ⟨_, m.read_char, rfl, hwr, by rw [read_char_input]; exact hmi, ?_, ?_⟩
      · intro he
        simp only at he
        exact absurd (map_eof _ (he ▸ hmap)) h0
      · intro _
        rw [read_char_pos]
        omega
    | none =>
      by_cases hic : m.is_identifier_char
      · rw [if_pos hic]
        have hwskip : wf m.skip_identifier_chars :=
          skipFuel_wf isIdentifierChar identChar_nul _ m hwm
        have hskipi : m.skip_identifier_chars.input = m.input := skipFuel_input _ _ m
        have hlt : m.read_position < m.skip_identifier_chars.read_position := by
          have hic2 : isIdentifierChar m.current_char = true := hic
          have hu := skip_identifier_chars_unfold m
          rw [if_pos hic2] at hu
          have := skipFuel_pos_le isIdentifierChar (m.read_char.input.length + 2) m.read_char
          rw [read_char_pos] at this
          rw [hu]
          show m.read_position < (skipFuel isIdentifierChar (m.read_char.input.length + 2) m.read_char).read_position
          omega
        obtain ⟨hm1, hm2, hm3⟩ := hwm
        obtain ⟨hs1, hs2, hs3⟩ := hwskip
        rw [hskipi] at hs2
        rw [read_identifier_token_eq]
        rw [sliceChars_some _ _ _ (by omega) (by rw [hskipi]; omega)]
        refine ⟨_, m.skip_identifier_chars, rfl, ⟨hs1, by rw [hskipi]; exact hs2, hs3⟩,
          by rw [hskipi]; exact hmi, ?_, ?_⟩
        · intro he
          simp only at he
          exact absurd he (lookup_ne_eof _)
        · intro _
          omega
      · rw [if_neg hic]
        by_cases hnc : m.is_number_char
        · rw [if_pos hnc]
          have hwskip : wf m.skip_number_chars :=
            skipFuel_wf isNumberChar numberChar_nul _ m hwm
          have hskipi : m.skip_number_chars.input = m.input := skipFuel_input _ _ m
          have hlt : m.read_position < m.skip_number_chars.read_position := by
            have hnc2 : isNumberChar m.current_char = true := hnc
            have hu := skip_number_chars_unfold m
            rw [if_pos hnc2] at hu
            have := skipFuel_pos_le isNumberChar (m.read_char.input.length + 2) m.read_char
            rw [read_char_pos] at this
            rw [hu]
            show m.read_position < (skipFuel isNumberChar (m.read_char.input.length + 2) m.read_char).read_position
            omega
          obtain ⟨hm1, hm2, hm3⟩ := hwm
          obtain ⟨hs1, hs2, hs3⟩ := hwskip
          rw [hskipi] at hs2
          rw [read_number_token_eq]
          rw [sliceChars_some _ _ _ (by omega) (by rw [hskipi]; omega)]
          refine ⟨_, m.skip_number_chars, rfl, ⟨hs1, by rw [hskipi]; exact hs2, hs3⟩,
            by rw [hskipi]; exact hmi, ?_, ?_⟩
          · intro he
            simp only at he
            exact absurd he (by decide)
          · intro _
            omega
        · rw [if_neg hnc]
          refine ⟨_, m.read_char, rfl, hwr, by rw [read_char_input]; exact hmi, ?_, ?_⟩
          · intro he
            simp only at he
            exact absurd he (by decide)
          · intro _
            rw [read_char_pos]
            omega

theorem nthState_succ (l l2 : Lexer) (t : Token) (m : Nat)
    (h : l.next_token = some (t, l2)) : nthState l (m + 1) = nthState l2 m := by
  show (match l.next_token with
    | none => none
    | some (_, l3) => nthState l3 m) = nthState l2 m
  rw [h]

theorem nthToken_succ (l l2 : Lexer) (t : Token) (m : Nat)
    (h : l.next_token = some (t, l2)) : nthToken l (m + 1) = nthToken l2 m := by
  unfold nthToken
  rw [nthState_succ l l2 t m h]

/-- Once the peeked character is the sentinel, the state never changes
again: every later call returns the same `EOF` token from the same state. -/
theorem eof_forever (l : Lexer) (h : l.current_char = '\x00') :
    ∀ m : Nat, nthToken l m = some { token_type := .EOF, literal := [] } := by
  have hstate : ∀ m : Nat, nthState l m = some l := by
    intro m
    induction m with
    | zero => rfl
    | succ m ih =>
      unfold nthState
      rw [eof_fix l h]
      exact ih
  intro m
  unfold nthToken
  rw [hstate m]
  show l.next_token.map Prod.fst = some { token_type := .EOF, literal := [] }
  rw [eof_fix l h]
  rfl

/-- Strong-induction core of termination: from any well-formed state, after
at most `input.length + 1 - read_position + 1` calls every call returns the
`EOF` token. -/
theorem term_aux :
    ∀ (k : Nat) (l : Lexer), wf l → l.input.length + 1 - l.read_position < k →
      ∃ N : Nat, N ≤ l.input.length + 1 - l.read_position + 1 ∧
        ∀ m : Nat, N ≤ m → nthToken l m = some { token_type := .EOF, literal := [] } := by
  intro k
  induction k with
  | zero => intro l _ hk; omega
  | succ k ih =>
    intro l hwf hk
    obtain ⟨t, l2, hnt, hwf2, hinp, heof, hne⟩ := next_token_step l hwf
    by_cases he : t.token_type = .EOF
    · obtain ⟨ht, hc2⟩ := heof he
      refine ⟨0, by omega, ?_⟩
      intro m _
      cases m with
      | zero =>
        show l.next_token.map Prod.fst = some { token_type := .EOF, literal := [] }
        rw [hnt, ht]
        rfl
      | succ m =>
        rw [nthToken_succ l l2 t m hnt]
        exact eof_forever l2 hc2 m
    · have hlt := hne he
      obtain ⟨hw1, hw2, hw3⟩ := hwf
      obtain ⟨h21, h22, h23⟩ := hwf2
      rw [hinp] at h22
      have hk2 : l.input.length + 1 - l2.read_position < k := by omega
      obtain ⟨N2, hN2le, hN2⟩ := ih l2 ⟨h21, by rw [hinp]; omega, h23⟩ (by rw [hinp]; omega)
      rw [hinp] at hN2le
      refine ⟨N2 + 1, by omega, ?_⟩
      intro m hm
      obtain ⟨m2, rfl⟩ : ∃ m2, m = m2 + 1 := ⟨m - 1, by omega⟩
      rw [nthToken_succ l l2 t m2 hnt]
      exact hN2 m2 (by omega)

theorem append_get_head (pre rest : List Char) :
    (pre ++ rest)[pre.length]? = rest.head? := by
  rw [List.getElem?_append_right (Nat.le_refl _)]
  simp [List.head?_eq_getElem?]

/-- Maximal munch: a scan loop positioned at the start of a run of
characters satisfying `pred`, with the run followed by a non-matching
character (or the end of input), consumes exactly the run. -/
theorem skip_run (pred : Char → Bool) (hnul : pred '\x00' = false) :
    ∀ (run pre rest : List Char) (l : Lexer), wf l →
      l.input = pre ++ run ++ rest → l.read_position = pre.length + 1 →
      (∀ c ∈ run, pred c = true) →
      (∀ r, rest.head? = some r → pred r = false) →
      skipFuel pred (l.input.length + 2) l =
        { input := l.input, read_position := pre.length + run.length + 1,
          current_char := (l.input[pre.length + run.length]?).getD '\x00' } := by
  intro run
  induction run with
  | nil =>
    intro pre rest l hwf hin hpos _ hrest
    obtain ⟨h1, h2, h3⟩ := hwf
    have hcur : l.current_char = (rest.head?).getD '\x00' := by
      rw [h3, hpos]
      simp only [Nat.add_sub_cancel]
      rw [hin]
      simp only [List.append_nil, List.nil_append, List.append_assoc]
      rw [append_get_head]
    have hstop : pred l.current_char = false := by
      rw [hcur]
      cases hh : rest.head? with
      | none => exact hnul
      | some r => exact hrest r hh
    rw [skipFuel_stop pred _ _ hstop]
    cases l with
    | mk inp pos cur =>
      simp only at hpos h3
      simp only [List.length_nil, Nat.add_zero, Lexer.mk.injEq]
      refine ⟨trivial, by omega, ?_⟩
      rw [h3, hpos]
      simp only [Nat.add_sub_cancel]
  | cons a run2 ih =>
    intro pre rest l hwf hin hpos hrun hrest
    obtain ⟨h1, h2, h3⟩ := hwf
    have hcur : l.current_char = a := by
      rw [h3, hpos]
      simp only [Nat.add_sub_cancel]
      rw [hin]
      simp only [List.append_assoc]
      rw [append_get_head]
      rfl
    have hpa : pred l.current_char = true := by
      rw [hcur]; exact hrun a (List.mem_cons_self a run2)
    have hu := skip_unfold pred hnul l
    rw [if_pos hpa] at hu
    rw [hu, read_char_input]
    have hwfr : wf l.read_char := read_char_wf l ⟨h1, h2, h3⟩ (by
      rw [hcur]
      intro he
      rw [hcur, he] at hpa
      rw [hnul] at hpa
      exact Bool.false_ne_true hpa)
    have hres := ih (pre ++ [a]) rest l.read_char hwfr
      (by rw [read_char_input, hin]; simp [List.append_assoc])
      (by rw [read_char_pos, hpos]; simp)
      (fun c hc => hrun c (List.mem_cons_of_mem a hc))
      hrest
    rw [read_char_input] at hres
    rw [hres]
    have hq : (pre ++ [a]).length + run2.length = pre.length + (a :: run2).length := by
      simp only [List.length_append, List.length_cons, List.length_nil]
      omega
    simp only [Lexer.mk.injEq]
    exact ⟨trivial, by rw [hq], by rw [hq]⟩

/-- C7 (amended): an input run of digits followed directly by letters is
split at the digit/letter boundary: the first call emits an `INT` token
whose text is exactly the digit run, and the next call emits a token whose
text is exactly the letter run, classified through the keyword table
(`IDENTIFIER` unless the letters are `fn` or `let`).  Digits are never
carried into the letter-run token. -/
theorem c7_digit_letter_boundary (ds as rest : List Char) (hds : ds ≠ []) (has : as ≠ [])
    (hd : ∀ c ∈ ds, c.isDigit = true) (ha : ∀ c ∈ as, c.isAlpha = true)
    (hrest : ∀ r, rest.head? = some r → isIdentifierChar r = false) :
    ∃ l1 l2 : Lexer,
      (Lexer.new (ds ++ as ++ rest)).next_token =
        some ({ token_type := .INT, literal := ds }, l1) ∧
      l1.next_token = some ({ token_type := lookup_identifier as, literal := as }, l2) := by
  obtain ⟨d, ds2, rfl⟩ := List.exists_cons_of_ne_nil hds
  obtain ⟨a, as2, rfl⟩ := List.exists_cons_of_ne_nil has
  have hdd : d.isDigit = true := hd d (List.mem_cons_self d ds2)
  have haa : a.isAlpha = true := ha a (List.mem_cons_self a as2)
  set input : List Char := (d :: ds2) ++ (a :: as2) ++ rest with hinput
  set l0 : Lexer := Lexer.new input with hl0
  have hl0e : l0 =
      { input := input, read_position := 1,
        current_char := (input[0]?).getD '\x00' } := rfl
  have hcur0 : l0.current_char = d := by
    rw [hl0e]
    show (input[0]?).getD '\x00' = d
    rw [hinput]
    simp only [List.cons_append, List.getElem?_cons_zero, Option.getD_some]
  have hwf0 : wf l0 := by
    rw [hl0e]
    exact ⟨Nat.le_refl 1, by simp, rfl⟩
  have hew : l0.eat_whitespace = l0 := by
    unfold Lexer.eat_whitespace
    exact skipFuel_stop _ _ _ (by
      show whitespace_chars.contains l0.current_char = false
      rw [hcur0]; exact digit_not_ws d hdd)
  have hne0 : ¬(l0.current_char = '\x00') := by rw [hcur0]; exact digit_ne_nul d hdd
  have hmap0 : single_char_token_map l0.current_char = none := by
    rw [hcur0]; exact digit_map_none d hdd
  have hic0 : l0.is_identifier_char = false := by
    show isIdentifierChar l0.current_char = false
    rw [hcur0]; exact digit_not_identChar d hdd
  have hnc0 : l0.is_number_char = true := by
    show isNumberChar l0.current_char = true
    unfold isNumberChar
    rw [hcur0]; exact hdd
  have hskip1 := skip_run isNumberChar numberChar_nul (d :: ds2) [] ((a :: as2) ++ rest)
    l0 hwf0 (by rw [hl0e]; simp [hinput, List.append_assoc]) (by rw [hl0e]; rfl) ?hrun1 ?hstop1
  case hrun1 => exact fun c hc => by unfold isNumberChar; exact hd c hc
  case hstop1 =>
    intro r hr
    simp only [List.cons_append, List.head?_cons, Option.some.injEq] at hr
    rw [← hr]
    exact alpha_not_digit a haa
  have hli : l0.input = input := by rw [hl0e]
  simp only [List.length_nil, Nat.zero_add, hli] at hskip1
  have hnum : l0.read_number_token =
      some ({ token_type := .INT, literal := d :: ds2 },
        { input := input, read_position := (d :: ds2).length + 1,
          current_char := (input[(d :: ds2).length]?).getD '\x00' }) := by
    rw [read_number_token_eq]
    have hsk : l0.skip_number_chars =
        { input := input, read_position := (d :: ds2).length + 1,
          current_char := (input[(d :: ds2).length]?).getD '\x00' } := hskip1
    rw [hsk]
    dsimp only
    rw [show l0.read_position - 1 = 0 from rfl, Nat.add_sub_cancel]
    rw [sliceChars_some input 0 (d :: ds2).length (Nat.zero_le _)
      (by rw [hinput]; simp only [List.length_append, List.length_cons]; omega)]
    dsimp only
    rw [Nat.sub_zero, List.drop_zero, hinput, List.append_assoc, List.take_left]
  have hfirst : l0.next_token =
      some ({ token_type := .INT, literal := d :: ds2 },
        { input := input, read_position := (d :: ds2).length + 1,
          current_char := (input[(d :: ds2).length]?).getD '\x00' }) := by
    rw [next_token_eq, hew, if_neg hne0, hmap0]
    dsimp only
    rw [hic0, if_neg Bool.false_ne_true, hnc0, if_pos rfl]
    exact hnum
  set l1 : Lexer :=
    { input := input, read_position := (d :: ds2).length + 1,
      current_char := (input[(d :: ds2).length]?).getD '\x00' } with hl1
  have hcur1 : l1.current_char = a := by
    show (input[(d :: ds2).length]?).getD '\x00' = a
    rw [hinput, List.append_assoc, append_get_head]
    rfl
  have hwf1 : wf l1 := by
    refine ⟨by show 1 ≤ (d :: ds2).length + 1; omega, ?_, ?_⟩
    · show (d :: ds2).length + 1 ≤ input.length + 1
      rw [hinput]
      simp only [List.length_append, List.length_cons]
      omega
    · show l1.current_char = (input[(d :: ds2).length + 1 - 1]?).getD '\x00'
      rw [Nat.add_sub_cancel]
  have hew1 : l1.eat_whitespace = l1 := by
    unfold Lexer.eat_whitespace
    exact skipFuel_stop _ _ _ (by
      show whitespace_chars.contains l1.current_char = false
      rw [hcur1]; exact alpha_not_ws a haa)
  have hne1 : ¬(l1.current_char = '\x00') := by rw [hcur1]; exact alpha_ne_nul a haa
  have hmap1 : single_char_token_map l1.current_char = none := by
    rw [hcur1]; exact alpha_map_none a haa
  have hic1 : l1.is_identifier_char = true := by
    show isIdentifierChar l1.current_char = true
    rw [hcur1]; exact alpha_identChar a haa
  have hskip2 := skip_run isIdentifierChar identChar_nul (a :: as2) (d :: ds2) rest l1 hwf1
    (by show input = _; rw [hinput]) rfl ?hrun2 ?hstop2
  case hrun2 => exact fun c hc => alpha_identChar c (ha c hc)
  case hstop2 => exact hrest
  have hident : l1.read_identifier_token =
      some ({ token_type := lookup_identifier (a :: as2), literal := a :: as2 },
        { input := input, read_position := (d :: ds2).length + (a :: as2).length + 1,
          current_char := (input[(d :: ds2).length + (a :: as2).length]?).getD '\x00' }) := by
    rw [read_identifier_token_eq]
    have hsk2 : l1.skip_identifier_chars =
        { input := input, read_position := (d :: ds2).length + (a :: as2).length + 1,
          current_char := (input[(d :: ds2).length + (a :: as2).length]?).getD '\x00' } := hskip2
    rw [hsk2]
    dsimp only
    rw [show l1.read_position - 1 = (d :: ds2).length from rfl, Nat.add_sub_cancel]
    rw [sliceChars_some input (d :: ds2).length ((d :: ds2).length + (a :: as2).length)
      (Nat.le_add_right _ _)
      (by rw [hinput]; simp only [List.length_append, List.length_cons]; omega)]
    dsimp only
    rw [Nat.add_sub_cancel_left, hinput, List.append_assoc, List.drop_left, List.take_left]
  refine ⟨l1,
    { input := input, read_position := (d :: ds2).length + (a :: as2).length + 1,
      current_char := (input[(d :: ds2).length + (a :: as2).length]?).getD '\x00' },
    hfirst, ?_⟩
  rw [next_token_eq, hew1, if_neg hne1, hmap1]
  dsimp only
  rw [hic1, if_pos rfl]
  exact hident

/-- Iterated scanning from any well-formed state never hits the panic case:
every state in the trace exists and is well-formed. -/
theorem nthState_total : ∀ (n : Nat) (l : Lexer), wf l → ∃ s, nthState l n = some s ∧ wf s := by
  intro n
  induction n with
  | zero => intro l hwf; exact ⟨l, rfl, hwf⟩
  | succ n ih =>
    intro l hwf
    obtain ⟨t, l2, hnt, hwf2, _, _, _⟩ := next_token_step l hwf
    obtain ⟨s, hs, hws⟩ := ih l2 hwf2
    exact ⟨s, by rw [nthState_succ l l2 t n hnt]; exact hs, hws⟩

theorem nthToken_total (l : Lexer) (hwf : wf l) (n : Nat) : ∃ t, nthToken l n = some t := by
  obtain ⟨s, hs, hws⟩ := nthState_total n l hwf
  obtain ⟨t, l2, hnt, _, _, _, _⟩ := next_token_step s hws
  refine ⟨t, ?_⟩
  unfold nthToken
  rw [hs]
  show s.next_token.map Prod.fst = some t
  rw [hnt]
  rfl

/-- C1 (code bug): on input `"="` the single `=` is matched in the
single-character table and exactly one `ASSIGN` token is emitted, but its
text is the NUL sentinel — the peeked character AFTER the advance — not
`"="`: `next_token` calls `read_char` first and only then builds the
literal from `current_char`. -/
theorem c1_single_char_literal_bug :
    (Lexer.new ['=']).next_token =
      some ({ token_type := .ASSIGN, literal := ['\x00'] },
        { input := ['='], read_position := 2, current_char := '\x00' }) ∧
    (['\x00'] : List Char) ≠ ['='] := by decide

/-- C2 (code bug): on input `"="` (no whitespace skipped anywhere), the
emitted token texts concatenate to the NUL sentinel, not to the original
input, so the reconstruction property fails: the `ASSIGN` token's text is
not a slice of the input at all. -/
theorem c2_reconstruction_bug :
    tokensFuel 3 (Lexer.new ['=']) =
      [{ token_type := .ASSIGN, literal := ['\x00'] },
       { token_type := .EOF, literal := [] }] ∧
    ((tokensFuel 3 (Lexer.new ['='])).map Token.literal).flatten ≠ ['='] := by decide

/-- C3 (code bug): on input `"@x"` the unrecognized `@` produces exactly
one `ILLEGAL` token and scanning does resume at the following character
`x` (visible in the returned state), but the token's text is that
following character `x`, not the offending `@`. -/
theorem c3_illegal_literal_bug :
    (Lexer.new ['@', 'x']).next_token =
      some ({ token_type := .ILLEGAL, literal := ['x'] },
        { input := ['@', 'x'], read_position := 2, current_char := 'x' }) ∧
    (['x'] : List Char) ≠ ['@'] := by decide

/-- C4 (code bug): inserting one space between the tokens of `"=x"` keeps
the kind sequence identical but changes the text of the `ASSIGN` token
(from `"x"` to `" "`), because a single-character token's text is whatever
character follows it. -/
theorem c4_whitespace_invariance_bug :
    (tokensFuel 4 (Lexer.new ['=', 'x'])).map Token.token_type =
      (tokensFuel 4 (Lexer.new ['=', ' ', 'x'])).map Token.token_type ∧
    (tokensFuel 4 (Lexer.new ['=', 'x'])).map Token.literal ≠
      (tokensFuel 4 (Lexer.new ['=', ' ', 'x'])).map Token.literal := by decide

/-- C5: from any well-formed state, a call made when the peeked character
is the sentinel returns `{EOF, ""}` with the state unchanged; every call
returns a token; and after at most `input.length + 2` calls every call
returns the `EOF` token — repeated calls produce a finite sequence of
non-`EOF` tokens ending in `EOF`, and keep returning `EOF` thereafter. -/
theorem c5_termination (l : Lexer) (hwf : wf l) :
    (l.current_char = '\x00' →
      l.next_token = some ({ token_type := .EOF, literal := [] }, l)) ∧
    (∀ m : Nat, ∃ t : Token, nthToken l m = some t) ∧
    ∃ N : Nat, N ≤ l.input.length + 2 ∧
      ∀ m : Nat, N ≤ m → nthToken l m = some { token_type := .EOF, literal := [] } := by
  refine ⟨fun h => eof_fix l h, fun m => nthToken_total l hwf m, ?_⟩
  obtain ⟨h1, h2, h3⟩ := hwf
  obtain ⟨N, hle, hN⟩ := term_aux (l.input.length + 2) l ⟨h1, h2, h3⟩ (by omega)
  exact ⟨N, by omega, hN⟩

/-- Witness for `c5_termination` at the concrete state `Lexer.new "a"`. -/
theorem c5_termination_witness :
    wf (Lexer.new ['a']) ∧
    (((Lexer.new ['a']).current_char = '\x00' →
      (Lexer.new ['a']).next_token =
        some ({ token_type := .EOF, literal := [] }, Lexer.new ['a'])) ∧
    (∀ m : Nat, ∃ t : Token, nthToken (Lexer.new ['a']) m = some t) ∧
    ∃ N : Nat, N ≤ (Lexer.new ['a']).input.length + 2 ∧
      ∀ m : Nat, N ≤ m →
        nthToken (Lexer.new ['a']) m = some { token_type := .EOF, literal := [] }) :=
  ⟨by decide, c5_termination (Lexer.new ['a']) (by decide)⟩

/-- C6: keyword classification is an exact, case-sensitive match against
the two-entry keyword table: `"fn"` maps to `FUNCTION`, `"let"` to `LET`,
any other text to `IDENTIFIER`; and every token produced by the identifier
scan carries exactly the kind `lookup_identifier` assigns to its text. -/
theorem c6_keyword_exactness :
    lookup_identifier ['f', 'n'] = .FUNCTION ∧
    lookup_identifier ['l', 'e', 't'] = .LET ∧
    (∀ s : List Char, s ≠ ['f', 'n'] → s ≠ ['l', 'e', 't'] →
      lookup_identifier s = .IDENTIFIER) ∧
    (∀ (l l2 : Lexer) (t : Token), l.read_identifier_token = some (t, l2) →
      t.token_type = lookup_identifier t.literal) := by
  refine ⟨by decide, by decide, ?_, ?_⟩
  · intro s h1 h2
    unfold lookup_identifier
    rw [if_neg h1, if_neg h2]
  · intro l l2 t h
    rw [read_identifier_token_eq] at h
    cases hs : sliceChars l.skip_identifier_chars.input (l.read_position - 1)
        (l.skip_identifier_chars.read_position - 1) with
    | none => rw [hs] at h; simp at h
    | some lit =>
      rw [hs] at h
      simp only [Option.some.injEq, Prod.mk.injEq] at h
      obtain ⟨ht, _⟩ := h
      rw [← ht]

/-- Witness for `c6_keyword_exactness`: the capitalized `"Let"` is not a
keyword and classifies as `IDENTIFIER`. -/
theorem c6_keyword_exactness_witness :
    (['L', 'e', 't'] : List Char) ≠ ['f', 'n'] ∧
    (['L', 'e', 't'] : List Char) ≠ ['l', 'e', 't'] ∧
    lookup_identifier ['L', 'e', 't'] = .IDENTIFIER :=
  ⟨by decide, by decide,
    c6_keyword_exactness.2.2.1 ['L', 'e', 't'] (by decide) (by decide)⟩

/-- C7 counterexample: on input `"123fn"` the token following the digit
run `"123"` is a `FUNCTION` token (the letter run `"fn"` is a keyword),
not an `Identifier` token as the claim states for every letter run. -/
theorem c7_keyword_counterexample :
    tokensFuel 4 (Lexer.new ['1', '2', '3', 'f', 'n']) =
      [{ token_type := .INT, literal := ['1', '2', '3'] },
       { token_type := .FUNCTION, literal := ['f', 'n'] },
       { token_type := .EOF, literal := [] }] ∧
    TokenType.FUNCTION ≠ TokenType.IDENTIFIER := by decide

/-- Witness for `c7_digit_letter_boundary` at the claim's own example
`"123abc"`: an `INT` token `"123"` followed by an `IDENTIFIER` token
`"abc"`. -/
theorem c7_digit_letter_boundary_witness :
    (['1', '2', '3'] : List Char) ≠ [] ∧
    (['a', 'b', 'c'] : List Char) ≠ [] ∧
    (∀ c ∈ (['1', '2', '3'] : List Char), c.isDigit = true) ∧
    (∀ c ∈ (['a', 'b', 'c'] : List Char), c.isAlpha = true) ∧
    lookup_identifier ['a', 'b', 'c'] = .IDENTIFIER ∧
    (∃ l1 l2 : Lexer,
      (Lexer.new (['1', '2', '3'] ++ ['a', 'b', 'c'] ++ [])).next_token =
        some ({ token_type := .INT, literal := ['1', '2', '3'] }, l1) ∧
      l1.next_token =
        some ({ token_type := lookup_identifier ['a', 'b', 'c'],
                literal := ['a', 'b', 'c'] }, l2)) :=
  ⟨by decide, by decide, by decide, by decide, by decide,
    c7_digit_letter_boundary ['1', '2', '3'] ['a', 'b', 'c'] []
      (by decide) (by decide) (by decide) (by decide)
      (by intro r hr; simp at hr)⟩

/-- C8: the compound input `"fn main() { let i = (2 + 2); }"` tokenizes to
exactly the claimed kind sequence, with the identifier and integer tokens
carrying the texts `"main"`, `"i"`, `"2"`, `"2"` and the final `EOF` token
carrying the empty text. -/
theorem c8_compound_scenario :
    ∃ ts : List Token,
      tokensFuel 20 (Lexer.new ['f', 'n', ' ', 'm', 'a', 'i', 'n', '(', ')', ' ', '{', ' ',
        'l', 'e', 't', ' ', 'i', ' ', '=', ' ', '(', '2', ' ', '+', ' ', '2', ')', ';',
        ' ', '}']) = ts ∧
      ts.map Token.token_type =
        [.FUNCTION, .IDENTIFIER, .LPARAN, .RPARAN, .LBRACE, .LET, .IDENTIFIER, .ASSIGN,
         .LPARAN, .INT, .PLUS, .INT, .RPARAN, .SEMICOLON, .RBRACE, .EOF] ∧
      ts[1]?.map Token.literal = some ['m', 'a', 'i', 'n'] ∧
      ts[6]?.map Token.literal = some ['i'] ∧
      ts[9]?.map Token.literal = some ['2'] ∧
      ts[11]?.map Token.literal = some ['2'] ∧
      ts[15]?.map Token.literal = some [] :=
  ⟨_, rfl, by decide, by decide, by decide, by decide, by decide, by decide⟩

/-- C9: on the empty input the very first call returns the `EOF` token
with empty text and leaves the freshly constructed state unchanged, and
every call thereafter (indeed every call at all) returns that same `EOF`
token — no other token kind is ever emitted. -/
theorem c9_empty_input :
    (Lexer.new []).next_token =
      some ({ token_type := .EOF, literal := [] }, Lexer.new []) ∧
    ∀ m : Nat, nthToken (Lexer.new []) m = some { token_type := .EOF, literal := [] } :=
  ⟨eof_fix (Lexer.new []) (by decide), eof_forever (Lexer.new []) (by decide)⟩

/-- C10: on ASCII input — where the byte indices used by the Rust slices
coincide with the character indices of this model, so the model's
`sliceChars` bounds check captures exactly the Rust panic condition — the
scanner never panics: from any well-formed state (every state reachable
from `Lexer.new` is well-formed) every iterated call succeeds and
preserves well-formedness, making the scanner total. -/
theorem c10_no_panic (l : Lexer) (hwf : wf l)
    (_hascii : ∀ c ∈ l.input, c.toNat < 128) :
    ∀ n : Nat, (∃ s, nthState l n = some s ∧ wf s) ∧ ∃ t, nthToken l n = some t :=
  fun n => ⟨nthState_total n l hwf, nthToken_total l hwf n⟩

/-- Witness for `c10_no_panic` at the concrete input `"@1a"` (which
exercises the illegal, number and identifier paths). -/
theorem c10_no_panic_witness :
    wf (Lexer.new ['@', '1', 'a']) ∧
    (∀ c ∈ (Lexer.new ['@', '1', 'a']).input, c.toNat < 128) ∧
    ((∃ s, nthState (Lexer.new ['@', '1', 'a']) 4 = some s ∧ wf s) ∧
      ∃ t, nthToken (Lexer.new ['@', '1', 'a']) 4 = some t) :=
  ⟨by decide, by decide, c10_no_panic (Lexer.new ['@', '1', 'a']) (by decide) (by decide) 4⟩
